import Mathlib

/-!
Verification development for the category fragment
`sage/categories/algebras_with_basis.py` and
`sage/categories/coalgebras_with_basis.py`.

A parent "with basis" is modelled as the free module over a commutative
ring `R` with a finite basis index set `ι`: an element is a coefficient
function `ι → R`.  An element of an iterated tensor power is modelled as a
coefficient function on tuples of basis indices, encoded as `List ι → R`
(a rank-`n` element is supported on lists of length `n`).

Structure constants translated from the source:
* `Db : ι → ι → ι → R` holds `coproduct_on_basis`: `Db i j k` is the
  coefficient of the basis pair `(j, k)` in the coproduct of basis
  element `i`.
* `mu : ι → ι → ι → R` holds a `product_on_basis` for an algebra factor.

Python exceptions are modelled with `Except PyErr`.
-/

namespace SageWB

inductive PyErr : Type
  | valueError
  | notImplementedError
  | typeError
  | attributeError
deriving DecidableEq

variable {ι : Type} [Fintype ι] [DecidableEq ι] {R : Type} [CommRing R]

/-- Coefficient function of the basis element (monomial) with index `i`. -/
def basisVec (i : ι) : ι → R := fun j => if j = i then 1 else 0

/-- Embed a rank-1 element (an element of the parent itself) into the
list-indexed tensor-power representation. -/
def ofVec (x : ι → R) : List ι → R
  | [i] => x i
  | _ => 0

/-- Coefficient of the basis pair `(j, k)` in the coproduct of the element
`x`, obtained by extending `coproduct_on_basis` (`Db`) by linearity. -/
def deltaCoef (Db : ι → ι → ι → R) (x : ι → R) (j k : ι) : R :=
  ∑ i, x i * Db i j k

/-- The coproduct of `x` as a rank-2 tensor element. -/
def coproductElt (Db : ι → ι → ι → R) (x : ι → R) : List ι → R
  | [j, k] => deltaCoef Db x j k
  | _ => 0

/-- Translation of `CoalgebrasWithBasis.ElementMethods.coproduct_iterated`
for a nonnegative iteration count: `0` returns the element itself, `1`
returns the coproduct, and `n >= 2` applies the coproduct once and then,
through `apply_multilinear_morphism`, applies `coproduct_iterated` with
`fn = (n-1)//2` to the left tensor factor and with
`cn = (n-1)//2 if n % 2 else n//2` to the right tensor factor, gluing the
results with `tensor`. -/
def ci (Db : ι → ι → ι → R) : ℕ → (ι → R) → List ι → R
  | 0, x => ofVec x
  | 1, x => coproductElt Db x
  | n + 2, x => fun l =>
      ∑ i, ∑ j, deltaCoef Db x i j *
        (ci Db ((n + 2 - 1) / 2) (basisVec i) (l.take ((n + 2 - 1) / 2 + 1)) *
          ci Db (if (n + 2) % 2 = 1 then (n + 2 - 1) / 2 else (n + 2) / 2)
            (basisVec j) (l.drop ((n + 2 - 1) / 2 + 1)))
termination_by n _ => n
decreasing_by
  all_goals first
    | omega
    | (split <;> omega)

/-- Translation of the guard and dispatch of `coproduct_iterated` on an
arbitrary integer argument: a negative count raises `ValueError`, a
nonnegative count runs the recursion `ci`. -/
def coproduct_iterated (Db : ι → ι → ι → R) (n : ℤ) (x : ι → R) :
    Except PyErr (List ι → R) :=
  if n < 0 then .error .valueError else .ok (ci Db n.toNat x)

/-- Apply the coproduct to the leftmost tensor factor of a tensor-power
element. -/
def deltaFirst (Db : ι → ι → ι → R) (u : List ι → R) : List ι → R
  | a :: b :: rest => ∑ i, Db i a b * u (i :: rest)
  | _ => 0

/-- The naive iterated coproduct described by the specification: apply the
coproduct `n` times, always to one (the leftmost) tensor factor. -/
def naive (Db : ι → ι → ι → R) : ℕ → (ι → R) → List ι → R
  | 0, x => ofVec x
  | n + 1, x => deltaFirst Db (naive Db n x)

/-- Coassociativity of the coproduct determined by the structure constants
`Db`, stated on basis elements: `(Delta ⊗ id) ∘ Delta` and
`(id ⊗ Delta) ∘ Delta` agree on every basis element. -/
def Coassoc (Db : ι → ι → ι → R) : Prop :=
  ∀ p a b c, (∑ m, Db p m c * Db m a b) = ∑ m, Db p a m * Db m b c

lemma naive_nil (Db : ι → ι → ι → R) (n : ℕ) (x : ι → R) :
    naive Db n x [] = 0 := by
  cases n <;> rfl

lemma deltaCoef_basisVec (Db : ι → ι → ι → R) (i j k : ι) :
    deltaCoef Db (basisVec i) j k = Db i j k := by
  simp [deltaCoef, basisVec, ite_mul]

/-- Sum-exchange step used once per induction step of `naive_cons`:
coassociativity lets the auxiliary coproduct move from the inner linear
combination to the outer one. -/
lemma crux1 (Db : ι → ι → ι → R) (hco : Coassoc Db) (x G : ι → R) (a c : ι) :
    (∑ i, Db i a c * ∑ j, deltaCoef Db x i j * G j)
      = ∑ j, deltaCoef Db x a j * ∑ m, Db j c m * G m := by
  have key : ∀ p j, (∑ i, Db p i j * Db i a c) = ∑ i, Db p a i * Db i c j :=
    fun p j => hco p a c j
  calc
    (∑ i, Db i a c * ∑ j, deltaCoef Db x i j * G j)
        = ∑ i, ∑ j, ∑ p, (x p * G j) * (Db p i j * Db i a c) := by
          refine Finset.sum_congr rfl fun i _ => ?_
          rw [Finset.mul_sum]
          refine Finset.sum_congr rfl fun j _ => ?_
          simp only [deltaCoef, Finset.sum_mul, Finset.mul_sum]
          exact Finset.sum_congr rfl fun p _ => by ring
    _ = ∑ j, ∑ i, ∑ p, (x p * G j) * (Db p i j * Db i a c) := Finset.sum_comm
    _ = ∑ j, ∑ p, ∑ i, (x p * G j) * (Db p i j * Db i a c) :=
          Finset.sum_congr rfl fun j _ => Finset.sum_comm
    _ = ∑ j, ∑ p, (x p * G j) * ∑ i, Db p i j * Db i a c := by
          refine Finset.sum_congr rfl fun j _ => Finset.sum_congr rfl fun p _ => ?_
          rw [Finset.mul_sum]
    _ = ∑ j, ∑ p, (x p * G j) * ∑ i, Db p a i * Db i c j := by
          refine Finset.sum_congr rfl fun j _ => Finset.sum_congr rfl fun p _ => ?_
          rw [key]
    _ = ∑ j, ∑ p, ∑ i, (x p * G j) * (Db p a i * Db i c j) := by
          refine Finset.sum_congr rfl fun j _ => Finset.sum_congr rfl fun p _ => ?_
          rw [Finset.mul_sum]
    _ = ∑ p, ∑ j, ∑ i, (x p * G j) * (Db p a i * Db i c j) := Finset.sum_comm
    _ = ∑ p, ∑ i, ∑ j, (x p * G j) * (Db p a i * Db i c j) :=
          Finset.sum_congr rfl fun p _ => Finset.sum_comm
    _ = ∑ i, ∑ p, ∑ j, (x p * G j) * (Db p a i * Db i c j) := Finset.sum_comm
    _ = ∑ j, deltaCoef Db x a j * ∑ m, Db j c m * G m := by
          refine Finset.sum_congr rfl fun i _ => ?_
          simp only [deltaCoef, Finset.sum_mul]
          refine Finset.sum_congr rfl fun p _ => ?_
          rw [Finset.mul_sum]
          exact Finset.sum_congr rfl fun j _ => by ring

/-- Head expansion of the naive iterate: on a cons list the `(b+1)`-fold
naive iterate is the coproduct followed by the `b`-fold naive iterate of
the right basis factor.  This needs coassociativity. -/
lemma naive_cons (Db : ι → ι → ι → R) (hco : Coassoc Db) (b : ℕ) :
    ∀ (x : ι → R) (a : ι) (rest : List ι),
      naive Db (b + 1) x (a :: rest)
        = ∑ j, deltaCoef Db x a j * naive Db b (basisVec j) rest := by
  induction b with
  | zero =>
      intro x a rest
      match rest with
      | [] => simp [naive, deltaFirst, ofVec]
      | [c] =>
          show (∑ i, Db i a c * ofVec x [i])
              = ∑ j, deltaCoef Db x a j * ofVec (basisVec j) [c]
          simp only [ofVec, basisVec, deltaCoef, mul_ite, mul_one, mul_zero,
            Finset.sum_ite_eq]
          simp [Finset.sum_mul, mul_comm]
      | c :: d :: t => simp [naive, deltaFirst, ofVec]
  | succ b ih =>
      intro x a rest
      match rest with
      | [] =>
          show (0 : R) = ∑ j, deltaCoef Db x a j * naive Db (b + 1) (basisVec j) []
          simp [naive_nil]
      | c :: t =>
          show (∑ i, Db i a c * naive Db (b + 1) x (i :: t))
              = ∑ j, deltaCoef Db x a j * naive Db (b + 1) (basisVec j) (c :: t)
          calc
            (∑ i, Db i a c * naive Db (b + 1) x (i :: t))
                = ∑ i, Db i a c * ∑ j, deltaCoef Db x i j * naive Db b (basisVec j) t := by
                  exact Finset.sum_congr rfl fun i _ => by rw [ih x i t]
            _ = ∑ j, deltaCoef Db x a j * ∑ m, Db j c m * naive Db b (basisVec m) t :=
                  crux1 Db hco x (fun j => naive Db b (basisVec j) t) a c
            _ = ∑ j, deltaCoef Db x a j * naive Db (b + 1) (basisVec j) (c :: t) := by
                  refine Finset.sum_congr rfl fun j _ => ?_
                  rw [ih (basisVec j) c t]
                  congr 1
                  exact Finset.sum_congr rfl fun m _ => by rw [deltaCoef_basisVec]

/-- Sum-exchange step used in the induction step of `naive_split`. -/
lemma crux2 (Db : ι → ι → ι → R) (hco : Coassoc Db) (x : ι → R)
    (F : ι → ι → R) (c : ι) :
    (∑ m, deltaCoef Db x c m * ∑ k, ∑ j, Db m k j * F k j)
      = ∑ i, ∑ j, deltaCoef Db x i j * ∑ k, Db i c k * F k j := by
  have key : ∀ p k j, (∑ m, Db p c m * Db m k j) = ∑ i, Db p i j * Db i c k :=
    fun p k j => (hco p c k j).symm
  calc
    (∑ m, deltaCoef Db x c m * ∑ k, ∑ j, Db m k j * F k j)
        = ∑ m, ∑ p, ∑ k, ∑ j, (x p * F k j) * (Db p c m * Db m k j) := by
          refine Finset.sum_congr rfl fun m _ => ?_
          simp only [deltaCoef, Finset.sum_mul]
          refine Finset.sum_congr rfl fun p _ => ?_
          simp only [Finset.mul_sum]
          exact Finset.sum_congr rfl fun k _ =>
            Finset.sum_congr rfl fun j _ => by ring
    _ = ∑ p, ∑ m, ∑ k, ∑ j, (x p * F k j) * (Db p c m * Db m k j) :=
          Finset.sum_comm
    _ = ∑ p, ∑ k, ∑ m, ∑ j, (x p * F k j) * (Db p c m * Db m k j) :=
          Finset.sum_congr rfl fun p _ => Finset.sum_comm
    _ = ∑ p, ∑ k, ∑ j, ∑ m, (x p * F k j) * (Db p c m * Db m k j) :=
          Finset.sum_congr rfl fun p _ =>
            Finset.sum_congr rfl fun k _ => Finset.sum_comm
    _ = ∑ p, ∑ k, ∑ j, ∑ i, (x p * F k j) * (Db p i j * Db i c k) := by
          refine Finset.sum_congr rfl fun p _ => ?_
          refine Finset.sum_congr rfl fun k _ => ?_
          refine Finset.sum_congr rfl fun j _ => ?_
          rw [← Finset.mul_sum, key p k j, Finset.mul_sum]
    _ = ∑ p, ∑ k, ∑ i, ∑ j, (x p * F k j) * (Db p i j * Db i c k) :=
          Finset.sum_congr rfl fun p _ =>
            Finset.sum_congr rfl fun k _ => Finset.sum_comm
    _ = ∑ p, ∑ i, ∑ k, ∑ j, (x p * F k j) * (Db p i j * Db i c k) :=
          Finset.sum_congr rfl fun p _ => Finset.sum_comm
    _ = ∑ i, ∑ p, ∑ k, ∑ j, (x p * F k j) * (Db p i j * Db i c k) :=
          Finset.sum_comm
    _ = ∑ i, ∑ j, deltaCoef Db x i j * ∑ k, Db i c k * F k j := by
          refine Finset.sum_congr rfl fun i _ => ?_
          calc
            (∑ p, ∑ k, ∑ j, (x p * F k j) * (Db p i j * Db i c k))
                = ∑ p, ∑ j, ∑ k, (x p * F k j) * (Db p i j * Db i c k) :=
                  Finset.sum_congr rfl fun p _ => Finset.sum_comm
            _ = ∑ j, ∑ p, ∑ k, (x p * F k j) * (Db p i j * Db i c k) :=
                  Finset.sum_comm
            _ = ∑ j, deltaCoef Db x i j * ∑ k, Db i c k * F k j := by
                  refine Finset.sum_congr rfl fun j _ => ?_
                  simp only [deltaCoef, Finset.sum_mul]
                  refine Finset.sum_congr rfl fun p _ => ?_
                  rw [Finset.mul_sum]
                  exact Finset.sum_congr rfl fun k _ => by ring

/-- Generalised coassociativity: the `(a+b+1)`-fold naive iterate is one
coproduct followed by the `a`-fold iterate on the left factor and the
`b`-fold iterate on the right factor, glued by splitting the index list
after `a+1` entries. -/
lemma naive_split (Db : ι → ι → ι → R) (hco : Coassoc Db) (a : ℕ) :
    ∀ (b : ℕ) (x : ι → R) (l : List ι),
      naive Db (a + b + 1) x l
        = ∑ i, ∑ j, deltaCoef Db x i j *
            (naive Db a (basisVec i) (l.take (a + 1)) *
              naive Db b (basisVec j) (l.drop (a + 1))) := by
  induction a with
  | zero =>
      intro b x l
      match l with
      | [] =>
          simp [naive_nil]
      | c :: t =>
          rw [show 0 + b + 1 = b + 1 by omega, naive_cons Db hco b x c t]
          simp only [List.take_succ_cons, List.take_zero, List.drop_succ_cons,
            List.drop_zero]
          calc
            (∑ j, deltaCoef Db x c j * naive Db b (basisVec j) t)
                = ∑ i, ∑ j, deltaCoef Db x i j *
                    (ofVec (basisVec i) [c] * naive Db b (basisVec j) t) := by
                  show _ = ∑ i, ∑ j, deltaCoef Db x i j *
                    ((if c = i then (1 : R) else 0) * naive Db b (basisVec j) t)
                  rw [Finset.sum_comm]
                  refine Finset.sum_congr rfl fun j _ => ?_
                  rw [show (∑ i, deltaCoef Db x i j *
                        ((if c = i then (1 : R) else 0) * naive Db b (basisVec j) t))
                      = ∑ i, if c = i then
                          deltaCoef Db x i j * naive Db b (basisVec j) t
                        else 0 from
                    Finset.sum_congr rfl fun i _ => by split <;> simp]
                  rw [Finset.sum_ite_eq]
                  simp
            _ = ∑ i, ∑ j, deltaCoef Db x i j *
                  (naive Db 0 (basisVec i) [c] * naive Db b (basisVec j) t) := rfl
  | succ a ih =>
      intro b x l
      match l with
      | [] =>
          simp [naive_nil]
      | c :: t =>
          rw [show a + 1 + b + 1 = (a + b + 1) + 1 by omega,
            naive_cons Db hco (a + b + 1) x c t]
          simp only [List.take_succ_cons, List.drop_succ_cons]
          calc
            (∑ m, deltaCoef Db x c m * naive Db (a + b + 1) (basisVec m) t)
                = ∑ m, deltaCoef Db x c m * ∑ k, ∑ j, Db m k j *
                    (naive Db a (basisVec k) (t.take (a + 1)) *
                      naive Db b (basisVec j) (t.drop (a + 1))) := by
                  refine Finset.sum_congr rfl fun m _ => ?_
                  rw [ih b (basisVec m) t]
                  congr 1
                  refine Finset.sum_congr rfl fun k _ => ?_
                  exact Finset.sum_congr rfl fun j _ => by
                    rw [deltaCoef_basisVec]
            _ = ∑ i, ∑ j, deltaCoef Db x i j * ∑ k, Db i c k *
                  (naive Db a (basisVec k) (t.take (a + 1)) *
                    naive Db b (basisVec j) (t.drop (a + 1))) :=
                  crux2 Db hco x
                    (fun k j => naive Db a (basisVec k) (t.take (a + 1)) *
                      naive Db b (basisVec j) (t.drop (a + 1))) c
            _ = ∑ i, ∑ j, deltaCoef Db x i j *
                  (naive Db (a + 1) (basisVec i) (c :: t.take (a + 1)) *
                    naive Db b (basisVec j) (t.drop (a + 1))) := by
                  refine Finset.sum_congr rfl fun i _ => ?_
                  refine Finset.sum_congr rfl fun j _ => ?_
                  rw [naive_cons Db hco a (basisVec i) c (t.take (a + 1))]
                  rw [Finset.sum_mul]
                  congr 1
                  refine Finset.sum_congr rfl fun k _ => ?_
                  rw [deltaCoef_basisVec]
                  ring

/-- The balanced recursion agrees with the naive iterate at every
nonnegative iteration count (not just at counts at least two). -/
lemma ci_eq_naive (Db : ι → ι → ι → R) (hco : Coassoc Db) :
    ∀ n (x : ι → R), ci Db n x = naive Db n x := by
  intro n
  induction n using Nat.strong_induction_on with
  | _ n ih =>
    match n with
    | 0 => intro x; rw [ci]; rfl
    | 1 =>
        intro x
        funext l
        rw [ci]
        match l with
        | [] => rfl
        | [a] => rfl
        | [a, c] =>
            show deltaCoef Db x a c = ∑ i, Db i a c * ofVec x [i]
            exact Finset.sum_congr rfl fun i _ => by
              show x i * Db i a c = Db i a c * x i
              ring
        | a :: c :: d :: t =>
            show (0 : R) = ∑ i, Db i a c * ofVec x (i :: d :: t)
            simp [ofVec]
    | (m + 2) =>
        intro x
        have hfn : (m + 2 - 1) / 2 < m + 2 := by omega
        have hcn : (if (m + 2) % 2 = 1 then (m + 2 - 1) / 2 else (m + 2) / 2)
            < m + 2 := by split <;> omega
        have hsum : (m + 2 - 1) / 2 +
            (if (m + 2) % 2 = 1 then (m + 2 - 1) / 2 else (m + 2) / 2) + 1
            = m + 2 := by split <;> omega
        funext l
        rw [ci]
        calc
          (∑ i, ∑ j, deltaCoef Db x i j *
              (ci Db ((m + 2 - 1) / 2) (basisVec i) (l.take ((m + 2 - 1) / 2 + 1)) *
                ci Db (if (m + 2) % 2 = 1 then (m + 2 - 1) / 2 else (m + 2) / 2)
                  (basisVec j) (l.drop ((m + 2 - 1) / 2 + 1))))
              = ∑ i, ∑ j, deltaCoef Db x i j *
                  (naive Db ((m + 2 - 1) / 2) (basisVec i)
                      (l.take ((m + 2 - 1) / 2 + 1)) *
                    naive Db (if (m + 2) % 2 = 1 then (m + 2 - 1) / 2 else (m + 2) / 2)
                      (basisVec j) (l.drop ((m + 2 - 1) / 2 + 1))) := by
                refine Finset.sum_congr rfl fun i _ => ?_
                refine Finset.sum_congr rfl fun j _ => ?_
                rw [ih _ hfn (basisVec i), ih _ hcn (basisVec j)]
          _ = naive Db ((m + 2 - 1) / 2 +
                (if (m + 2) % 2 = 1 then (m + 2 - 1) / 2 else (m + 2) / 2) + 1) x l :=
              (naive_split Db hco ((m + 2 - 1) / 2)
                (if (m + 2) % 2 = 1 then (m + 2 - 1) / 2 else (m + 2) / 2) x l).symm
          _ = naive Db (m + 2) x l := by rw [hsum]

/-- C1: for every element `x` of a coalgebra with basis whose coproduct is
coassociative and every integer `n >= 2`, `coproduct_iterated n` computed
by the balanced recursion (one coproduct, then the two recursive calls on
the tensor factors through `apply_multilinear_morphism`) equals the naive
`n`-fold iterated coproduct obtained by applying the coproduct `n` times
to one side. -/
theorem claim_C1_balanced_iterate_eq_naive
    (Db : ι → ι → ι → R) (hco : Coassoc Db) (x : ι → R) (n : ℤ) (hn : 2 ≤ n) :
    coproduct_iterated Db n x = Except.ok (naive Db n.toNat x) := by
  unfold coproduct_iterated
  rw [if_neg (by omega), ci_eq_naive Db hco]

/-- Witness for C1 at the one-dimensional grouplike coalgebra over the
integers with `n = 2`. -/
theorem claim_C1_balanced_iterate_eq_naive_witness :
    Coassoc (fun _ _ _ => (1 : ℤ) : Fin 1 → Fin 1 → Fin 1 → ℤ)
      ∧ (2 : ℤ) ≤ 2
      ∧ coproduct_iterated (fun _ _ _ => (1 : ℤ) : Fin 1 → Fin 1 → Fin 1 → ℤ)
          2 (fun _ => 1)
        = Except.ok (naive (fun _ _ _ => (1 : ℤ) : Fin 1 → Fin 1 → Fin 1 → ℤ)
            (2 : ℤ).toNat (fun _ => 1)) :=
  ⟨by unfold Coassoc; decide, by decide,
    claim_C1_balanced_iterate_eq_naive _ (by unfold Coassoc; decide) _ 2 (by decide)⟩

/-- C9: `coproduct_iterated n` raises `ValueError` exactly when `n < 0`;
`coproduct_iterated 0` returns the element itself and
`coproduct_iterated 1` returns its coproduct. -/
theorem claim_C9_guard_and_base_cases
    (Db : ι → ι → ι → R) (n : ℤ) (x : ι → R) :
    ((coproduct_iterated Db n x = Except.error PyErr.valueError) ↔ n < 0)
      ∧ coproduct_iterated Db 0 x = Except.ok (ofVec x)
      ∧ coproduct_iterated Db 1 x = Except.ok (coproductElt Db x) := by
  refine ⟨?_, ?_, ?_⟩
  · unfold coproduct_iterated
    split
    · simp [*]
    · simp [*]
  · unfold coproduct_iterated
    rw [if_neg (by omega), show ((0 : ℤ).toNat) = 0 from rfl, ci]
  · unfold coproduct_iterated
    rw [if_neg (by omega), show ((1 : ℤ).toNat) = 1 from rfl, ci]

/-- Record of the optional abstract methods of a coalgebra-with-basis
parent that the lazy attributes `coproduct` and `counit` dispatch on.
`none` models a method that is `NotImplemented` (respectively absent, for
the `_by_coercion` fallbacks). -/
structure CoalgebraData (ι R : Type) where
  coproduct_on_basis : Option (ι → ι → ι → R)
  coproduct_by_coercion : Option ((ι → R) → ι → ι → R)
  counit_on_basis : Option (ι → R)
  counit_by_coercion : Option ((ι → R) → R)

/-- Modelled from the spec: the external "module morphism by linearity"
constructor (`Hom(..)(on_basis=..)` / `module_morphism`) of the
modules-with-basis framework, which is not part of this fragment.  It
takes a function on basis indices and returns its linear extension. -/
def moduleMorphism {M : Type} [AddCommMonoid M] [Module R M]
    (f : ι → M) (x : ι → R) : M :=
  ∑ i, x i • f i

/-- Translation of the lazy attribute
`CoalgebrasWithBasis.ParentMethods.coproduct`: extend
`coproduct_on_basis` by linearity when it is implemented, otherwise fall
back to `coproduct_by_coercion`. -/
def coproductAttr (P : CoalgebraData ι R) : Option ((ι → R) → ι → ι → R) :=
  match P.coproduct_on_basis with
  | some cob => some (moduleMorphism fun i => cob i)
  | none => P.coproduct_by_coercion

/-- Translation of the lazy attribute
`CoalgebrasWithBasis.ParentMethods.counit`: extend `counit_on_basis` by
linearity (codomain the base ring) when it is implemented, otherwise fall
back to `counit_by_coercion`. -/
def counitAttr (P : CoalgebraData ι R) : Option ((ι → R) → R) :=
  match P.counit_on_basis with
  | some cb => some (moduleMorphism cb)
  | none => P.counit_by_coercion

lemma moduleMorphism_basisVec {M : Type} [AddCommMonoid M] [Module R M]
    (f : ι → M) (i : ι) : moduleMorphism f (basisVec i : ι → R) = f i := by
  simp [moduleMorphism, basisVec, ite_smul]

/-- C2: for a parent implementing `coproduct_on_basis`, the lazy attribute
`coproduct` is the linear extension of `coproduct_on_basis`: it agrees
with `coproduct_on_basis` on every basis element and sends a finite
linear combination of basis elements to the corresponding linear
combination of the `coproduct_on_basis` values. -/
theorem claim_C2_coproduct_is_linear_extension
    (P : CoalgebraData ι R) (cob : ι → ι → ι → R)
    (h : P.coproduct_on_basis = some cob) :
    coproductAttr P = some (moduleMorphism fun i => cob i)
      ∧ (∀ i, moduleMorphism (fun i => cob i) (basisVec i : ι → R) = cob i)
      ∧ ∀ c : ι → R,
          moduleMorphism (fun i => cob i) (fun t => ∑ i, c i * basisVec i t)
            = ∑ i, c i • cob i := by
  refine ⟨by rw [coproductAttr, h], fun i => moduleMorphism_basisVec _ i, fun c => ?_⟩
  unfold moduleMorphism
  calc
    (∑ t, (∑ i, c i * basisVec i t) • cob t)
        = ∑ t, ∑ i, (c i * basisVec i t) • cob t := by
          exact Finset.sum_congr rfl fun t _ => by rw [Finset.sum_smul]
    _ = ∑ i, ∑ t, (c i * basisVec i t) • cob t := Finset.sum_comm
    _ = ∑ i, c i • cob i := by
          refine Finset.sum_congr rfl fun i _ => ?_
          simp [basisVec, mul_ite, ite_smul]

/-- Witness for C2 at a concrete one-dimensional parent over the
integers. -/
theorem claim_C2_coproduct_is_linear_extension_witness :
    (CoalgebraData.mk (some fun _ _ _ => (2 : ℤ)) none none none
        : CoalgebraData (Fin 1) ℤ).coproduct_on_basis
        = some (fun _ _ _ => (2 : ℤ) : Fin 1 → Fin 1 → Fin 1 → ℤ)
      ∧ (coproductAttr (CoalgebraData.mk (some fun _ _ _ => (2 : ℤ)) none none none)
            = some (moduleMorphism fun i =>
                (fun _ _ _ => (2 : ℤ) : Fin 1 → Fin 1 → Fin 1 → ℤ) i)
          ∧ (∀ i, moduleMorphism
                (fun i => (fun _ _ _ => (2 : ℤ) : Fin 1 → Fin 1 → Fin 1 → ℤ) i)
                (basisVec i : Fin 1 → ℤ)
              = (fun _ _ _ => (2 : ℤ) : Fin 1 → Fin 1 → Fin 1 → ℤ) i)
          ∧ ∀ c : Fin 1 → ℤ,
              moduleMorphism
                  (fun i => (fun _ _ _ => (2 : ℤ) : Fin 1 → Fin 1 → Fin 1 → ℤ) i)
                  (fun t => ∑ i, c i * basisVec i t)
                = ∑ i, c i • (fun _ _ _ => (2 : ℤ) : Fin 1 → Fin 1 → Fin 1 → ℤ) i) :=
  ⟨rfl, claim_C2_coproduct_is_linear_extension _ _ rfl⟩

/-- C6: for a parent implementing `counit_on_basis`, the lazy attribute
`counit` is the linear extension of `counit_on_basis` with codomain the
base ring; when `counit_on_basis` is not implemented the attribute falls
back to `counit_by_coercion`. -/
theorem claim_C6_counit_dispatch (P : CoalgebraData ι R) :
    (∀ cb : ι → R, P.counit_on_basis = some cb →
        counitAttr P = some (moduleMorphism cb)
          ∧ ∀ i, moduleMorphism cb (basisVec i : ι → R) = cb i)
      ∧ (P.counit_on_basis = none → counitAttr P = P.counit_by_coercion) :=
  ⟨fun cb h => ⟨by rw [counitAttr, h], fun i => moduleMorphism_basisVec cb i⟩,
    fun h => by rw [counitAttr, h]⟩

/-- Witness for C6: one concrete parent with `counit_on_basis`
implemented and one that falls back to `counit_by_coercion`. -/
theorem claim_C6_counit_dispatch_witness :
    (counitAttr (CoalgebraData.mk none none (some fun _ => (3 : ℤ)) none
          : CoalgebraData (Fin 1) ℤ)
        = some (moduleMorphism (fun _ => (3 : ℤ) : Fin 1 → ℤ))
      ∧ ∀ i : Fin 1, moduleMorphism (fun _ => (3 : ℤ) : Fin 1 → ℤ)
          (basisVec i : Fin 1 → ℤ)
          = (fun _ => (3 : ℤ) : Fin 1 → ℤ) i)
    ∧ counitAttr (CoalgebraData.mk none none none (some fun x => x 0)
          : CoalgebraData (Fin 1) ℤ)
        = some fun x => x 0 :=
  ⟨(claim_C6_counit_dispatch _).1 _ rfl, (claim_C6_counit_dispatch _).2 rfl⟩

/-- Modelled from the spec: the external "tensor" constructor over a
sequence of modules with basis; the tensor product of `k` elements has
coefficient at a basis tuple the product of the factor coefficients. -/
def tensorElt {k : ℕ} (v : Fin k → ι → R) : (Fin k → ι) → R :=
  fun t => ∏ j, v j (t j)

/-- Modelled from the spec: multiplication via linear (bilinear) extension
of a product-on-basis, supplied by the surrounding framework
(`_product_from_product_on_basis_multiply`); `mu a b` is the product of
the basis elements indexed `a` and `b`. -/
def productFromBasis (mu : ι → ι → ι → R) (x y : ι → R) : ι → R :=
  fun t => ∑ a, ∑ b, x a * y b * mu a b t

/-- Translation of
`AlgebrasWithBasis.TensorProducts.ParentMethods.product_on_basis`: the
tensor product over the factors of `module.monomial(x1) * module.monomial(x2)`. -/
def tensorProductOnBasis {k : ℕ} (mu : Fin k → ι → ι → ι → R)
    (t1 t2 : Fin k → ι) : (Fin k → ι) → R :=
  tensorElt fun j => productFromBasis (mu j) (basisVec (t1 j)) (basisVec (t2 j))

lemma productFromBasis_basisVec (mu : ι → ι → ι → R) (a b : ι) :
    productFromBasis mu (basisVec a) (basisVec b) = mu a b := by
  funext t
  simp [productFromBasis, basisVec, ite_mul, one_mul, zero_mul,
    Finset.sum_ite_eq]

/-- C3: on a tensor product of algebras with basis, `product_on_basis`
applied to two index tuples is computed componentwise: it is the tensor
element whose `j`-th factor is the product (in the `j`-th factor algebra)
of the two basis elements indexed by the `j`-th components. -/
theorem claim_C3_tensor_product_componentwise {k : ℕ}
    (mu : Fin k → ι → ι → ι → R) (t1 t2 : Fin k → ι) :
    tensorProductOnBasis mu t1 t2 = tensorElt fun j => mu j (t1 j) (t2 j) := by
  funext t
  unfold tensorProductOnBasis tensorElt
  refine Finset.prod_congr rfl fun j _ => ?_
  simp only [productFromBasis_basisVec]

/-- State of the `one_basis` attribute of a factor parent: absent, present
but `NotImplemented` (an unimplemented optional abstract method), or
implemented with value `i`. -/
inductive AttrState (ι : Type) : Type
  | absent
  | notImpl
  | impl (i : ι)
deriving DecidableEq

/-- Python `hasattr(module, "one_basis")`: true also for a
`NotImplemented` attribute. -/
def hasOneBasisAttr : AttrState ι → Bool
  | .absent => false
  | _ => true

/-- Result of reading the implemented value of `one_basis`, if any. -/
def oneBasisImplValue : AttrState ι → Option ι
  | .impl i => some i
  | _ => none

/-- Translation of
`AlgebrasWithBasis.TensorProducts.ParentMethods.one_basis`: if every
factor passes the `hasattr` check, call `one_basis()` on each factor
(calling a `NotImplemented` attribute raises `TypeError`), otherwise
raise `NotImplementedError`. -/
def tensorOneBasis {k : ℕ} (ob : Fin k → AttrState ι) :
    Except PyErr (Fin k → ι) :=
  if ∀ j, hasOneBasisAttr (ob j) = true then
    if h : ∀ j, (oneBasisImplValue (ob j)).isSome = true then
      .ok fun j => (oneBasisImplValue (ob j)).get (h j)
    else .error .typeError
  else .error .notImplementedError

/-- Modelled from the spec: the external `one` of an algebra with basis is
the monomial at the index `one_basis()` (from
`UnitalAlgebras.WithBasis.ParentMethods.one`).  Here for the tensor
square, whose basis indices are tuples. -/
def monomialT {k : ℕ} (u : Fin k → ι) : (Fin k → ι) → R :=
  fun t => if t = u then 1 else 0

/-- The `one` of a tensor product of algebras with basis: the monomial
indexed by `tensorOneBasis`, propagating its exception. -/
def tensorOne {k : ℕ} (ob : Fin k → AttrState ι) :
    Except PyErr ((Fin k → ι) → R) :=
  (tensorOneBasis ob).map monomialT

lemma hasOneBasisAttr_eq_false {s : AttrState ι} :
    hasOneBasisAttr s = false ↔ s = .absent := by
  cases s <;> simp [hasOneBasisAttr]

lemma oneBasisImplValue_isSome {s : AttrState ι} :
    (oneBasisImplValue s).isSome = true ↔ ∃ i, s = .impl i := by
  cases s <;> simp [oneBasisImplValue]

/-- C4: on a tensor product whose factors all provide `one_basis`,
`one_basis()` returns the tuple of the `one_basis()` values of the factors,
the `one` of the tensor product is the basis element indexed by that
tuple. -/
theorem claim_C4_tensor_one_basis_is_tuple {k : ℕ}
    (ob : Fin k → AttrState ι) (u : Fin k → ι)
    (h : ∀ j, ob j = .impl (u j)) :
    tensorOneBasis ob = .ok u
      ∧ (tensorOne ob : Except PyErr ((Fin k → ι) → R))
          = .ok (monomialT u) := by
  have h1 : ∀ j, hasOneBasisAttr (ob j) = true := fun j => by rw [h j]; rfl
  have h2 : ∀ j, (oneBasisImplValue (ob j)).isSome = true := fun j => by
    rw [h j]; rfl
  have e : tensorOneBasis ob = .ok u := by
    unfold tensorOneBasis
    rw [if_pos h1, dif_pos h2]
    congr 1
    funext j
    simp [h j, oneBasisImplValue]
  exact ⟨e, by unfold tensorOne; rw [e]; rfl⟩

/-- Witness for C4 on a two-factor tensor product with implemented
`one_basis` values. -/
theorem claim_C4_tensor_one_basis_is_tuple_witness :
    (∀ j : Fin 2, (fun _ : Fin 2 => AttrState.impl (0 : Fin 1)) j
        = AttrState.impl ((fun _ : Fin 2 => (0 : Fin 1)) j))
      ∧ tensorOneBasis (fun _ : Fin 2 => AttrState.impl (0 : Fin 1))
          = .ok (fun _ : Fin 2 => (0 : Fin 1))
      ∧ (tensorOne (fun _ : Fin 2 => AttrState.impl (0 : Fin 1))
            : Except PyErr ((Fin 2 → Fin 1) → ℤ))
          = .ok (monomialT fun _ : Fin 2 => (0 : Fin 1)) :=
  ⟨fun _ => rfl,
    (claim_C4_tensor_one_basis_is_tuple (R := ℤ) _ _ fun _ => rfl).1,
    (claim_C4_tensor_one_basis_is_tuple (R := ℤ) _ _ fun _ => rfl).2⟩

/-- Which implementation the Cartesian-product `one` lazy attribute
dispatches to. -/
inductive CartesianOneImpl : Type
  | fromOneBasis
  | generic
deriving DecidableEq

/-- Translation of the lazy attribute
`AlgebrasWithBasis.CartesianProducts.ParentMethods.one`: use
`one_from_cartesian_product_of_one_basis` when every factor has a
`one_basis` attribute that is not `NotImplemented`, else the generic
unital-algebra `one`. -/
def cartesianOneDispatch {k : ℕ} (ob : Fin k → AttrState ι) :
    CartesianOneImpl :=
  if ∀ j, hasOneBasisAttr (ob j) = true ∧ ob j ≠ .notImpl then
    .fromOneBasis
  else .generic

/-- C10: the tensor-product `one_basis` raises `NotImplementedError`
exactly when some factor lacks the `one_basis` attribute; with all
attributes present but one of them `NotImplemented` it instead raises
`TypeError` (the check tests only attribute presence); the
Cartesian-product `one` dispatch additionally requires the attribute to
not be `NotImplemented`. -/
theorem claim_C10_hasattr_check_only {k : ℕ} (ob : Fin k → AttrState ι) :
    ((tensorOneBasis ob = .error .notImplementedError) ↔ ∃ j, ob j = .absent)
      ∧ ((∀ j, ob j ≠ .absent) → (∃ j, ob j = .notImpl) →
          tensorOneBasis ob = .error .typeError)
      ∧ ((cartesianOneDispatch ob = .fromOneBasis) ↔ ∀ j, ∃ i, ob j = .impl i) := by
  refine ⟨?_, ?_, ?_⟩
  · unfold tensorOneBasis
    by_cases hall : ∀ j, hasOneBasisAttr (ob j) = true
    · rw [if_pos hall]
      constructor
      · intro hc
        by_cases h2 : ∀ j, (oneBasisImplValue (ob j)).isSome = true
        · rw [dif_pos h2] at hc; exact absurd hc (by simp)
        · rw [dif_neg h2] at hc; exact absurd hc (by simp)
      · rintro ⟨j, hj⟩
        have := hall j
        rw [hj] at this
        exact absurd this (by simp [hasOneBasisAttr])
    · rw [if_neg hall]
      push_neg at hall
      obtain ⟨j, hj⟩ := hall
      have hja : ob j = .absent := by
        cases hb : hasOneBasisAttr (ob j)
        · exact hasOneBasisAttr_eq_false.mp hb
        · exact absurd hb hj
      exact ⟨fun _ => ⟨j, hja⟩, fun _ => rfl⟩
  · intro hab ⟨j, hj⟩
    have hall : ∀ m, hasOneBasisAttr (ob m) = true := by
      intro m
      cases hb : hasOneBasisAttr (ob m)
      · exact absurd (hasOneBasisAttr_eq_false.mp hb) (hab m)
      · rfl
    have h2 : ¬ ∀ m, (oneBasisImplValue (ob m)).isSome = true := by
      intro h2
      obtain ⟨i, hi⟩ := oneBasisImplValue_isSome.mp (h2 j)
      rw [hj] at hi
      exact AttrState.noConfusion hi
    unfold tensorOneBasis
    rw [if_pos hall, dif_neg h2]
  · unfold cartesianOneDispatch
    by_cases hc : ∀ j, hasOneBasisAttr (ob j) = true ∧ ob j ≠ .notImpl
    · rw [if_pos hc]
      simp only [true_iff]
      intro j
      obtain ⟨h1, h2⟩ := hc j
      cases hs : ob j with
      | absent => rw [hs] at h1; exact absurd h1 (by simp [hasOneBasisAttr])
      | notImpl => exact absurd hs h2
      | impl i => exact ⟨i, rfl⟩
    · rw [if_neg hc]
      constructor
      · intro h; exact absurd h (by simp)
      · intro himpl
        exfalso
        refine hc fun j => ?_
        obtain ⟨i, hi⟩ := himpl j
        rw [hi]
        exact ⟨rfl, by simp⟩

/-- Witness for C10: one factor implemented, one `NotImplemented`. -/
theorem claim_C10_hasattr_check_only_witness :
    (∀ j : Fin 2, ![AttrState.impl (0 : Fin 1), AttrState.notImpl] j
        ≠ AttrState.absent)
      ∧ (∃ j : Fin 2, ![AttrState.impl (0 : Fin 1), AttrState.notImpl] j
          = AttrState.notImpl)
      ∧ tensorOneBasis ![AttrState.impl (0 : Fin 1), AttrState.notImpl]
          = .error .typeError :=
  ⟨by decide, by decide,
    (claim_C10_hasattr_check_only
      ![AttrState.impl (0 : Fin 1), AttrState.notImpl]).2.1
      (by decide) (by decide)⟩

/-- Basis monomial of a Cartesian product of algebras with basis: the
basis is indexed by pairs (factor position, factor basis index). -/
def cpMonomial {k : ℕ} (q : Fin k × ι) : (Fin k × ι) → R :=
  fun p => if p = q then 1 else 0

/-- Modelled from the spec: the external `sum_of_monomials` of the
modules-with-basis framework, summing the monomials at a list of
indices. -/
def sumOfMonomials {k : ℕ} (L : List (Fin k × ι)) : (Fin k × ι) → R :=
  fun p => (L.map fun q => cpMonomial q p).sum

/-- The list `self._sets_keys()` of factor positions of a `k`-fold
Cartesian product. -/
def setsKeys (k : ℕ) : List (Fin k) := List.finRange k

/-- Translation of
`AlgebrasWithBasis.CartesianProducts.ParentMethods.one_from_cartesian_product_of_one_basis`:
`self.sum_of_monomials(zip(self._sets_keys(), (set.one_basis() for set in
self._sets)))`, for factors whose `one_basis` values are given by `u`. -/
def oneFromCartesianProductOfOneBasis {k : ℕ} (u : Fin k → ι) :
    (Fin k × ι) → R :=
  sumOfMonomials ((setsKeys k).zip ((setsKeys k).map u))

lemma zip_self_map {α β : Type} (u : α → β) :
    ∀ l : List α, l.zip (l.map u) = l.map fun a => (a, u a)
  | [] => rfl
  | a :: t => by simp [zip_self_map u t]

/-- C5: on a Cartesian product of algebras with basis whose factors all
implement `one_basis`, `one_from_cartesian_product_of_one_basis` is the
sum over factor positions `i` of the monomial indexed by
`(i, one_basis of the i-th factor)`, and the lazy attribute `one`
dispatches exactly to that method. -/
theorem claim_C5_cartesian_one_is_sum_of_monomials {k : ℕ}
    (ob : Fin k → AttrState ι) (u : Fin k → ι)
    (h : ∀ j, ob j = .impl (u j)) :
    cartesianOneDispatch ob = .fromOneBasis
      ∧ (oneFromCartesianProductOfOneBasis u : (Fin k × ι) → R)
          = fun p => ∑ j, cpMonomial (j, u j) p := by
  constructor
  · unfold cartesianOneDispatch
    rw [if_pos]
    intro j
    rw [h j]
    exact ⟨rfl, by simp⟩
  · funext p
    unfold oneFromCartesianProductOfOneBasis sumOfMonomials setsKeys
    rw [zip_self_map, List.map_map, Fin.sum_univ_def]
    rfl

/-- Witness for C5 on a two-factor Cartesian product over the
integers. -/
theorem claim_C5_cartesian_one_is_sum_of_monomials_witness :
    (∀ j : Fin 2, (fun _ : Fin 2 => AttrState.impl (0 : Fin 1)) j
        = AttrState.impl ((fun _ : Fin 2 => (0 : Fin 1)) j))
      ∧ cartesianOneDispatch (fun _ : Fin 2 => AttrState.impl (0 : Fin 1))
          = .fromOneBasis
      ∧ (oneFromCartesianProductOfOneBasis (fun _ : Fin 2 => (0 : Fin 1))
            : (Fin 2 × Fin 1) → ℤ)
          = fun p => ∑ j, cpMonomial (j, (fun _ : Fin 2 => (0 : Fin 1)) j) p :=
  ⟨fun _ => rfl,
    (claim_C5_cartesian_one_is_sum_of_monomials (R := ℤ) _ _ fun _ => rfl).1,
    (claim_C5_cartesian_one_is_sum_of_monomials (R := ℤ) _ _ fun _ => rfl).2⟩

/-- Categories in the fragment, parameterised by an abstract type of base
rings. -/
inductive SCat (ρ : Type) : Type
  | algebrasWithBasis (r : ρ)
deriving DecidableEq

/-- A functorial-construction category of Cartesian products, recording
its base category as in `CartesianProductsCategory`. -/
structure CartesianProductsCat (ρ : Type) : Type where
  base_category : SCat ρ

/-- A functorial-construction category of tensor products, recording its
base category as in `TensorProductsCategory`. -/
structure TensorProductsCat (ρ : Type) : Type where
  base_category : SCat ρ

/-- The construction `AlgebrasWithBasis(R).CartesianProducts()`. -/
def awbCartesianProducts {ρ : Type} (r : ρ) : CartesianProductsCat ρ :=
  ⟨SCat.algebrasWithBasis r⟩

/-- The construction `AlgebrasWithBasis(R).TensorProducts()`. -/
def awbTensorProducts {ρ : Type} (r : ρ) : TensorProductsCat ρ :=
  ⟨SCat.algebrasWithBasis r⟩

/-- Translation of
`AlgebrasWithBasis.CartesianProducts.extra_super_categories`: return
`[self.base_category()]`. -/
def cartesianExtraSuperCategories {ρ : Type} (C : CartesianProductsCat ρ) :
    List (SCat ρ) :=
  [C.base_category]

/-- Translation of
`AlgebrasWithBasis.TensorProducts.extra_super_categories`: return
`[self.base_category()]`. -/
def tensorExtraSuperCategories {ρ : Type} (C : TensorProductsCat ρ) :
    List (SCat ρ) :=
  [C.base_category]

/-- C7: for every base ring, `extra_super_categories` of both the
Cartesian-products and the tensor-products construction over
`AlgebrasWithBasis(R)` is the one-element list containing
`AlgebrasWithBasis(R)` itself, which is how both constructions are placed
back in the category of algebras with basis. -/
theorem claim_C7_extra_super_categories {ρ : Type} (r : ρ) :
    cartesianExtraSuperCategories (awbCartesianProducts r)
        = [SCat.algebrasWithBasis r]
      ∧ tensorExtraSuperCategories (awbTensorProducts r)
        = [SCat.algebrasWithBasis r] :=
  ⟨rfl, rfl⟩

section Inversion

variable {K : Type} [Field K] [DecidableEq K]

/-- The element `c` times the basis monomial at `i`
(`self.parent().term(i, c)`). -/
def term (i : ι) (c : K) : ι → K := fun j => if j = i then c else 0

/-- The set of basis indices with nonzero coefficient, i.e. the keys of
`self.monomial_coefficients()`. -/
def monomialCoefficients (x : ι → K) : Finset ι :=
  Finset.univ.filter fun i => x i ≠ 0

/-- Translation of `AlgebrasWithBasis.ElementMethods.__invert__`: when the
monomial coefficients consist of the single key `one_basis()` with value
`c`, return `term(one_basis(), ~c)`; otherwise raise `ValueError`. -/
def invertElt (one : ι) (x : ι → K) : Except PyErr (ι → K) :=
  if (monomialCoefficients x).card = 1 ∧ one ∈ monomialCoefficients x then
    .ok (term one (x one)⁻¹)
  else .error .valueError

/-- C8: `__invert__` returns `term(one_basis, c⁻¹)` exactly when the
monomial coefficients of the element consist of the single entry at index
`one_basis` with coefficient `c = x one`; in every other case it raises
`ValueError` (the element itself is never modified: the translation is a
pure function of `x`). -/
theorem claim_C8_invert_multiple_of_one (one : ι) (x : ι → K) :
    (monomialCoefficients x = {one} →
        invertElt one x = .ok (term one (x one)⁻¹))
      ∧ (monomialCoefficients x ≠ {one} →
          invertElt one x = .error .valueError) := by
  have hb : ((monomialCoefficients x).card = 1
        ∧ one ∈ monomialCoefficients x)
      ↔ monomialCoefficients x = {one} := by
    constructor
    · rintro ⟨hc, hm⟩
      obtain ⟨a, ha⟩ := Finset.card_eq_one.mp hc
      rw [ha] at hm ⊢
      rw [Finset.mem_singleton] at hm
      rw [hm]
    · intro h
      rw [h]
      simp
  constructor
  · intro h
    rw [invertElt, if_pos (hb.mpr h)]
  · intro h
    rw [invertElt, if_neg fun hc => h (hb.mp hc)]

/-- Witness for C8 over the rationals on a two-element basis: a nonzero
multiple of one is inverted, a generator is rejected. -/
theorem claim_C8_invert_multiple_of_one_witness :
    (monomialCoefficients (term (0 : Fin 2) (2 : ℚ)) = {0}
      ∧ invertElt (0 : Fin 2) (term (0 : Fin 2) (2 : ℚ))
          = .ok (term (0 : Fin 2) ((term (0 : Fin 2) (2 : ℚ)) 0)⁻¹))
    ∧ (monomialCoefficients (basisVec (1 : Fin 2) : Fin 2 → ℚ) ≠ {0}
      ∧ invertElt (0 : Fin 2) (basisVec (1 : Fin 2) : Fin 2 → ℚ)
          = .error .valueError) :=
  ⟨⟨by decide, (claim_C8_invert_multiple_of_one 0 _).1 (by decide)⟩,
    ⟨by decide, (claim_C8_invert_multiple_of_one 0 _).2 (by decide)⟩⟩

end Inversion

end SageWB
